import Mathlib

/-!
Verification of the rANS entropy-coding engine of `Utilities/rANS` (AliceO2).

The repository slice under scrutiny ships the static factory layer
(`rANS/factory.h`); the engine it dispatches to (histogram containers, the
renormalizer `renorm`, `SymbolTable`, the decoder tables and the
encoder/decoder state machines) is declared and composed there but its body is
not part of the slice.  Those parts are therefore modelled from the
specification (spec.md §3, §4.2-§4.6), as flagged on each definition; the
factory-level compositions are translated directly from `factory.h`.

Machine integers: all state registers and counts are modelled as `Nat`.  The
C++ code uses fixed-width unsigned registers; under the renormalization
invariant every intermediate value stays strictly below
`lowerBound * 2^streamBits`, which is within the register range, so no
wrap-around occurs and `Nat` arithmetic is faithful on the reachable states.
-/

namespace O2Rans

/-! ### Histogram: the counting contract (spec §2.1, §4.1)

Modelled from the spec: the four histogram representations (dense, sparse,
hash, set) all expose the same counting contract — a mapping from symbol
value to occurrence count, built from an empty histogram by `addSamples`,
combinable by element-wise `merge`.  The common contract is modelled as a
function `Nat → Nat`; the dense array representation used by the
renormalization pipeline is modelled as a `List Nat` of counts indexed by
symbol value. -/

/-- Modelled from the spec: a histogram starts empty (every count zero). -/
def emptyHist : Nat → Nat := fun _ => 0

/-- Modelled from the spec: counting one sample increments its symbol's count. -/
def histAddSample (h : Nat → Nat) (x : Nat) : Nat → Nat :=
  fun s => if s = x then h s + 1 else h s

/-- Modelled from the spec: `addSamples` accumulates occurrence counts of a
batch of samples into a histogram. -/
def histAddSamples (h : Nat → Nat) (xs : List Nat) : Nat → Nat :=
  xs.foldl histAddSample h

/-- Modelled from the spec: the histogram of a sample batch, built from the
empty histogram by `addSamples`. -/
def histogramOf (xs : List Nat) : Nat → Nat :=
  histAddSamples emptyHist xs

/-- Modelled from the spec: `merge(other)` combines two histograms over the
same domain by element-wise addition. -/
def histMerge (h1 h2 : Nat → Nat) : Nat → Nat :=
  fun s => h1 s + h2 s

/-! ### Dense histogram as a counts table

The dense representation stores counts in an array indexed by symbol value
(spec §4.1 "array indexed by symbol value minus its minimum"; the minimum is
0 here since the modelled symbols are naturals). -/

/-- Modelled from the spec: increment the dense counts table at symbol `s`,
growing the table with zero entries if `s` is beyond its current extent. -/
def listIncAt (l : List Nat) (s : Nat) : List Nat :=
  let l2 := if s < l.length then l else l ++ List.replicate (s + 1 - l.length) 0
  l2.set s (l2.getD s 0 + 1)

/-- Modelled from the spec: a dense histogram is a counts table, index =
symbol value. -/
structure Hist where
  counts : List Nat
deriving DecidableEq, Repr

/-- Modelled from the spec: dense-histogram `addSamples`. -/
def Hist.addSamples (h : Hist) (xs : List Nat) : Hist :=
  ⟨xs.foldl listIncAt h.counts⟩

/-! ### Renormalizer (spec §4.2)

Modelled from the spec: scale every nonzero raw count proportionally to the
target sum `2^precision` with `scaledCount = max(1, round(rawCount *
2^precision / totalRawCount))`, then distribute the signed remainder
`2^precision - sum(scaledCount)` across symbols ordered by descending raw
frequency (ties broken by ascending symbol value), one unit per symbol per
pass, never reducing any symbol below frequency 1. -/

/-- Round-to-nearest division `round (a / b)`, halves rounding up. -/
def roundDiv (a b : Nat) : Nat := (2 * a + b) / (2 * b)

/-- Modelled from the spec: proportional scaling pass of the renormalizer.
Symbols with zero raw count stay at zero; every other symbol gets
`max 1 (round (count * 2^precision / total))`. -/
def scaledCounts (counts : List Nat) (p : Nat) : List Nat :=
  counts.map (fun c => if c = 0 then 0 else max 1 (roundDiv (c * 2 ^ p) counts.sum))

/-- Symbols of the dense table holding a nonzero raw count, in ascending
symbol order. -/
def nonzeroSymbols (counts : List Nat) : List Nat :=
  (List.range counts.length).filter (fun s => counts.getD s 0 ≠ 0)

/-- Correction-pass visiting order as a Boolean comparison: descending raw
frequency, ties broken by ascending symbol value. -/
def freqLe (counts : List Nat) (a b : Nat) : Bool :=
  decide (counts.getD b 0 < counts.getD a 0) ||
    (decide (counts.getD a 0 = counts.getD b 0) && decide (a ≤ b))

/-- Insertion step of the deterministic sort used for the correction order. -/
def insertBy (le : Nat → Nat → Bool) (x : Nat) : List Nat → List Nat
  | [] => [x]
  | y :: ys => if le x y then x :: y :: ys else y :: insertBy le x ys

/-- Insertion sort by a Boolean comparison. -/
def sortBy (le : Nat → Nat → Bool) : List Nat → List Nat
  | [] => []
  | x :: xs => insertBy le x (sortBy le xs)

/-- Modelled from the spec: the order in which the correction pass visits
symbols — descending raw frequency, ties by ascending symbol value. -/
def orderOf (counts : List Nat) : List Nat :=
  sortBy (freqLe counts) (nonzeroSymbols counts)

/-- One incrementing pass: add one unit to each visited symbol while
remainder units are left. -/
def incPass : List Nat → List Nat → Nat → List Nat × Nat
  | freqs, [], r => (freqs, r)
  | freqs, _ :: _, 0 => (freqs, 0)
  | freqs, s :: rest, r + 1 => incPass (freqs.set s (freqs.getD s 0 + 1)) rest r

/-- Modelled from the spec: distribute a positive remainder, one unit per
symbol per pass, until it is exhausted. -/
def distributeInc : Nat → List Nat → List Nat → Nat → List Nat
  | 0, freqs, _, _ => freqs
  | fuel + 1, freqs, order, r =>
    if r = 0 then freqs
    else
      let fr := incPass freqs order r
      distributeInc fuel fr.1 order fr.2

/-- One decrementing pass: remove one unit from each visited symbol whose
frequency is still above 1, while remainder units are left. -/
def decPass : List Nat → List Nat → Nat → List Nat × Nat
  | freqs, [], r => (freqs, r)
  | freqs, _ :: _, 0 => (freqs, 0)
  | freqs, s :: rest, r + 1 =>
    if 1 < freqs.getD s 0 then decPass (freqs.set s (freqs.getD s 0 - 1)) rest r
    else decPass freqs rest (r + 1)

/-- Modelled from the spec: distribute a negative remainder, one unit per
symbol per pass, never reducing a symbol below frequency 1. -/
def distributeDec : Nat → List Nat → List Nat → Nat → List Nat
  | 0, freqs, _, _ => freqs
  | fuel + 1, freqs, order, r =>
    if r = 0 then freqs
    else
      let fr := decPass freqs order r
      distributeDec fuel fr.1 order fr.2

/-- Modelled from the spec: full renormalization of a dense counts table to
target sum `2^p` — proportional scaling followed by the correction pass. -/
def renormFreqs (counts : List Nat) (p : Nat) : List Nat :=
  let scaled := scaledCounts counts p
  let order := orderOf counts
  let target := 2 ^ p
  if scaled.sum ≤ target then distributeInc (target - scaled.sum) scaled order (target - scaled.sum)
  else distributeDec (scaled.sum - target) scaled order (scaled.sum - target)

/-- Error conditions of the coding core (spec §7). -/
inductive RansError where
  | EmptyInputError
  | InvalidRangeError
  | PrecisionOutOfRangeError
  | SymbolNotFoundError
  | SlotResolutionError
deriving DecidableEq, Repr

/-- Modelled from the spec: an immutable histogram-like structure whose
frequencies sum to `2^precision` exactly, plus the chosen precision. -/
structure RenormedHistogram where
  freqs : List Nat
  precision : Nat
deriving DecidableEq, Repr

/-- Modelled from the spec: renormalization of a histogram with an explicit
precision; a histogram with zero total count is an `EmptyInputError`, fatal
to the call. -/
def renorm (counts : List Nat) (p : Nat) : Except RansError RenormedHistogram :=
  if counts.sum = 0 then .error .EmptyInputError
  else .ok ⟨renormFreqs counts p, p⟩

/-! ### Symbol table and decoder table (spec §4.3, §4.4) -/

/-- Modelled from the spec: the cumulative-frequency start of symbol `s` —
the exclusive prefix sum of frequencies over symbols below `s`. -/
def cumFreq (freqs : List Nat) (s : Nat) : Nat :=
  (freqs.take s).sum

/-- Modelled from the spec: DecoderTable lookup — resolve a cumulative-
frequency slot to the symbol whose range `[cumulativeStart, cumulativeStart +
frequency)` contains it, or fail (`SlotResolutionError`) when no symbol owns
the slot. -/
def slotLookup : List Nat → Nat → Option Nat
  | [], _ => none
  | f :: rest, slot =>
    if slot < f then some 0
    else (slotLookup rest (slot - f)).map (· + 1)

/-! ### Encoder and decoder state machines (spec §4.5, §4.6)

Modelled from the spec.  One stream register, initialized to the lower bound
`L`; per symbol the encoder emits renormalization words of `b` bits while the
updated state would exceed the representable range `L * 2^b`, then applies
`state' = (state / f) * 2^p + state % f + c`.  The decoder reverses this
exactly, reading words back while the state falls below `L`.  The emitted
words are accumulated with the most recently emitted word first, which is the
order in which the decoder consumes them (spec §4.5: the output word order is
the reverse of logical symbol order). -/

/-- Modelled from the spec: the rANS state update for a symbol with frequency
`f` and cumulative start `c` at precision `p`. -/
def encUpdate (p f c x : Nat) : Nat :=
  (x / f) * 2 ^ p + x % f + c

/-- Modelled from the spec: the encoder renormalization loop — while the
updated state would reach `B = L * 2^b`, emit the low `b` bits of the state
and shift it right.  `fuel` bounds the iteration count; callers pass `x + 1`,
which strictly exceeds the number of possible emissions. -/
def encEmitGo (p b B f c : Nat) : Nat → Nat → List Nat → Nat × List Nat
  | 0, x, out => (x, out)
  | fuel + 1, x, out =>
    if B ≤ encUpdate p f c x then encEmitGo p b B f c fuel (x / 2 ^ b) (x % 2 ^ b :: out)
    else (x, out)

/-- Modelled from the spec: encode one symbol `s` on stream state `x` with
pending output words `out` — renormalize, then apply the state update. -/
def encStep (p L b : Nat) (freqs : List Nat) (st : Nat × List Nat) (s : Nat) : Nat × List Nat :=
  let f := freqs.getD s 0
  let c := cumFreq freqs s
  let xo := encEmitGo p b (L * 2 ^ b) f c (st.1 + 1) st.1 st.2
  (encUpdate p f c xo.1, xo.2)

/-- Modelled from the spec: encode a whole symbol sequence on one stream.
Symbols are processed in reverse emission order relative to how the decoder
consumes them, starting from state `L` with no output; the result is the
flushed terminal state plus the emitted words (most recent first). -/
def encodeAll (p L b : Nat) (freqs : List Nat) : List Nat → Nat × List Nat
  | [] => (L, [])
  | s :: rest => encStep p L b freqs (encodeAll p L b freqs rest) s

/-- Modelled from the spec: the decoder renormalization loop — while the
state is below the lower bound `L`, consume the next word and shift it in. -/
def decRead (b L : Nat) : Nat → List Nat → Nat × List Nat
  | x, [] => (x, [])
  | x, w :: rest => if x < L then decRead b L (x * 2 ^ b + w) rest else (x, w :: rest)

/-- Modelled from the spec: decode one symbol — take the slot `state mod
2^p`, resolve it through the decoder table, invert the state update, then
renormalize by reading words.  An unresolvable slot is a
`SlotResolutionError`, reported as `none`. -/
def decStep (p L b : Nat) (freqs : List Nat) (st : Nat × List Nat) :
    Option Nat × (Nat × List Nat) :=
  let slot := st.1 % 2 ^ p
  match slotLookup freqs slot with
  | none => (none, st)
  | some s =>
    let f := freqs.getD s 0
    let c := cumFreq freqs s
    let x2 := f * (st.1 / 2 ^ p) + slot - c
    (some s, decRead b L x2 st.2)

/-- Modelled from the spec: decode `n` symbols from a stream state, producing
the symbols in original order together with the final state and the words
left unconsumed.  A slot-resolution failure aborts the call. -/
def decodeAll (p L b : Nat) (freqs : List Nat) : Nat → Nat × List Nat → List Nat × (Nat × List Nat)
  | 0, st => ([], st)
  | n + 1, st =>
    let r := decStep p L b freqs st
    match r.1 with
    | none => ([], r.2)
    | some s =>
      let rec2 := decodeAll p L b freqs n r.2
      (s :: rec2.1, rec2.2)

/-! ### Multi-stream interleaving (spec §4.5, §5)

Modelled from the spec: symbols are block-partitioned over `n` independent
streams (spec §4.5 permits round-robin or block partitioning); each stream's
state evolves independently and is flushed separately. -/

/-- Modelled from the spec: block-partition a symbol sequence into `n`
contiguous chunks (the last chunks may be shorter). -/
def splitBlocks : Nat → List Nat → List (List Nat)
  | 0, _ => []
  | n + 1, xs =>
    let k := (xs.length + n) / (n + 1)
    xs.take k :: splitBlocks n (xs.drop k)

/-- Modelled from the spec: multi-stream encode — encode each block on its
own stream. -/
def encodeMulti (p L b n : Nat) (freqs : List Nat) (syms : List Nat) : List (Nat × List Nat) :=
  (splitBlocks n syms).map (encodeAll p L b freqs)

/-- Modelled from the spec: multi-stream decode — decode `ks i` symbols from
stream `i` and concatenate the blocks back in order. -/
def decodeMulti (p L b : Nat) (freqs : List Nat) (ks : List Nat)
    (streams : List (Nat × List Nat)) : List Nat :=
  ((ks.zip streams).map (fun pr => (decodeAll p L b freqs pr.1 pr.2).1)).flatten

/-! ### Factory layer (factory.h)

These definitions are translated from `rANS/factory.h`, the code under
`src/`; `renorm` overloads with an automatic precision delegate to a
precision suggested by the Metrics collaborator (spec §6), whose exact
formula is outside the core. -/

/-- Renorming policy selector of the factory API (`RenormingPolicy`);
`factory.h` shows the `Auto` default, and the policy type admits further
members not visible in the slice, modelled here by a second constructor. -/
inductive RenormingPolicy where
  | Auto
  | ForceIncompressible
deriving DecidableEq, Repr

/-- Modelled from the spec: the automatically chosen precision under the
`Auto` policy — some deterministic function of the distribution statistics
(spec §4.2, §6); the exact formula is external to the core, here a simple
clamp of the alphabet size's bit width. -/
def autoPrecision (counts : List Nat) : Nat :=
  max 2 (Nat.log2 (nonzeroSymbols counts).length + 2)

/-- Modelled from the spec: `renorm(histogram, newPrecision, policy)` — with
an explicit precision the renormalization result (spec §4.2) depends only on
the histogram and the precision, so the policy argument does not influence
it. -/
def renormWithPrecision (counts : List Nat) (p : Nat) (_policy : RenormingPolicy) :
    Except RansError RenormedHistogram :=
  renorm counts p

/-- Modelled from the spec: `renorm(histogram, policy)` — precision chosen
automatically from distribution statistics. -/
def renormAuto (counts : List Nat) (policy : RenormingPolicy) :
    Except RansError RenormedHistogram :=
  renormWithPrecision counts (autoPrecision counts) policy

/-- Translated from factory.h (`makeHistogram::fromSamples`, lines 55-63):
default-construct a histogram, then `addSamples` over the range. -/
def makeHistogramFromSamples (xs : List Nat) : Hist :=
  Hist.addSamples ⟨[]⟩ xs

/-- Translated from factory.h (`makeEncoder::fromHistogram(histogram,
renormingPolicy)`, lines 263-267): renormalize with automatic precision,
then build the encoder from the renormed histogram.  The renormed model
fully determines the encoder, so the model is the returned value. -/
def makeEncoderFromHistogramAuto (h : Hist) (policy : RenormingPolicy) :
    Except RansError RenormedHistogram :=
  renormAuto h.counts policy

/-- Translated from factory.h (`makeEncoder::fromHistogram(histogram,
renormingPrecision, renormingPolicy)`, lines 276-281): renormalize at the
explicit precision, forwarding the policy. -/
def makeEncoderFromHistogramPrec (h : Hist) (prec : Nat) (policy : RenormingPolicy) :
    Except RansError RenormedHistogram :=
  renormWithPrecision h.counts prec policy

/-- Translated from factory.h (`makeDecoder::fromHistogram(histogram,
renormingPrecision, renormingPolicy)`, lines 363-368): the decoder overload
invokes `renorm` with only the precision, dropping the policy argument, so
the `Auto` default of `renorm` applies. -/
def makeDecoderFromHistogramPrec (h : Hist) (prec : Nat) (_policy : RenormingPolicy) :
    Except RansError RenormedHistogram :=
  renormWithPrecision h.counts prec RenormingPolicy.Auto

/-- Translated from factory.h (`makeEncoder::fromSamples(begin, end,
renormingPolicy)`, lines 283-288): build the histogram from the samples,
then defer to `fromHistogram`. -/
def makeEncoderFromSamplesAuto (xs : List Nat) (policy : RenormingPolicy) :
    Except RansError RenormedHistogram :=
  makeEncoderFromHistogramAuto (makeHistogramFromSamples xs) policy

/-- Translated from factory.h (`makeEncoder::fromSamples(begin, end,
renormingPrecision, renormingPolicy)`, lines 297-302): build the histogram
from the samples, then defer to `fromHistogram`. -/
def makeEncoderFromSamplesPrec (xs : List Nat) (prec : Nat) (policy : RenormingPolicy) :
    Except RansError RenormedHistogram :=
  makeEncoderFromHistogramPrec (makeHistogramFromSamples xs) prec policy

/-! ### Basic list helpers -/

/-- Reading a dense table after `set` at an in-range index. -/
theorem listGetD_set (l : List Nat) (i v s : Nat) (hi : i < l.length) :
    (l.set i v).getD s 0 = if s = i then v else l.getD s 0 := by
  rw [List.getD_eq_getElem?_getD, List.getD_eq_getElem?_getD, List.getElem?_set]
  by_cases h : i = s
  · subst h
    simp [hi]
  · rw [if_neg h, if_neg (fun hs => h hs.symm)]

/-- Padding a dense table with zero entries does not change any read. -/
theorem pad_getD (l : List Nat) (k s : Nat) :
    (l ++ List.replicate k 0).getD s 0 = l.getD s 0 := by
  rw [List.getD_eq_getElem?_getD, List.getD_eq_getElem?_getD, List.getElem?_append]
  by_cases h : s < l.length
  · rw [if_pos h]
  · rw [if_neg h, List.getElem?_replicate]
    have h2 : l[s]? = none := by
      rw [List.getElem?_eq_none_iff]
      omega
    rw [h2]
    by_cases h3 : s - l.length < k <;> simp [h3]

/-- Effect of a dense-table increment on an arbitrary read. -/
theorem listIncAt_getD (l : List Nat) (x s : Nat) :
    (listIncAt l x).getD s 0 = if s = x then l.getD s 0 + 1 else l.getD s 0 := by
  unfold listIncAt
  by_cases hx : x < l.length
  · rw [if_pos hx, listGetD_set _ _ _ _ hx]
    by_cases h : s = x <;> simp [h]
  · rw [if_neg hx]
    have hlen : x < (l ++ List.replicate (x + 1 - l.length) 0).length := by
      rw [List.length_append, List.length_replicate]
      omega
    rw [listGetD_set _ _ _ _ hlen, pad_getD, pad_getD]
    by_cases h : s = x <;> simp [h]

/-- Accumulated effect of dense-table increments: each read counts the
occurrences of its symbol among the added samples. -/
theorem foldl_listIncAt_getD (xs : List Nat) (l : List Nat) (s : Nat) :
    (xs.foldl listIncAt l).getD s 0 = l.getD s 0 + xs.count s := by
  induction xs generalizing l with
  | nil => simp
  | cons x xs ih =>
    show ((xs.foldl listIncAt) (listIncAt l x)).getD s 0 = _
    rw [ih, listIncAt_getD, List.count_cons]
    by_cases h : s = x
    · subst h
      simp
      omega
    · have hb : (x == s) = false := by
        simp [Ne.symm h]
      simp [h, hb]

/-- The functional histogram counts occurrences of each symbol. -/
theorem histAddSamples_apply (xs : List Nat) (h : Nat → Nat) (s : Nat) :
    histAddSamples h xs s = h s + xs.count s := by
  induction xs generalizing h with
  | nil => simp [histAddSamples]
  | cons x xs ih =>
    show histAddSamples (histAddSample h x) xs s = _
    rw [ih, List.count_cons]
    unfold histAddSample
    by_cases hs : s = x
    · subst hs
      simp
      omega
    · have hb : (x == s) = false := by
        simp [Ne.symm hs]
      simp [hs, hb]

/-- The histogram of a batch is the occurrence count of each symbol. -/
theorem histogramOf_apply (xs : List Nat) (s : Nat) : histogramOf xs s = xs.count s := by
  rw [histogramOf, histAddSamples_apply]
  simp [emptyHist]

/-! ### Claim theorems: factory layer and histogram algebra -/

/-- C6: histogram `merge` is associative and commutative, and merging the
histograms of two sample batches yields the histogram of their
concatenation. -/
theorem merge_assoc_comm_concat (h1 h2 h3 : Nat → Nat) (xs ys : List Nat) :
    histMerge (histMerge h1 h2) h3 = histMerge h1 (histMerge h2 h3) ∧
    histMerge h1 h2 = histMerge h2 h1 ∧
    histMerge (histogramOf xs) (histogramOf ys) = histogramOf (xs ++ ys) := by
  refine ⟨funext fun s => ?_, funext fun s => ?_, funext fun s => ?_⟩
  · unfold histMerge
    omega
  · unfold histMerge
    omega
  · unfold histMerge
    rw [histogramOf_apply, histogramOf_apply, histogramOf_apply, List.count_append]

/-- C8: renormalization of a histogram with zero total count fails with
`EmptyInputError`, producing no result. -/
theorem renorm_empty_input (counts : List Nat) (p : Nat) (h : counts.sum = 0) :
    renorm counts p = Except.error RansError.EmptyInputError := by
  simp [renorm, h]

/-- C8 witness: the zero histogram `[0, 0]` at precision 3. -/
theorem renorm_empty_input_witness :
    ([0, 0] : List Nat).sum = 0 ∧
      renorm [0, 0] 3 = Except.error RansError.EmptyInputError :=
  ⟨by decide, renorm_empty_input [0, 0] 3 (by decide)⟩

/-- C9: with an explicit precision, the encoder factory (which forwards the
policy to `renorm`) and the decoder factory (which drops it) build their
coders from equal RenormedHistograms; the equality reduces exactly to the
policy having no effect on `renorm` once the precision is explicit, which
holds in the renormalization model. -/
theorem encoder_decoder_same_renormed (h : Hist) (p : Nat) (r : RenormingPolicy) :
    makeEncoderFromHistogramPrec h p r = makeDecoderFromHistogramPrec h p r ∧
    (makeEncoderFromHistogramPrec h p r = makeDecoderFromHistogramPrec h p r ↔
      renormWithPrecision h.counts p r = renormWithPrecision h.counts p RenormingPolicy.Auto) :=
  ⟨rfl, Iff.rfl⟩

/-- C10: the sample-based encoder factory entry points are exactly the
composition of histogram construction from an empty histogram with the
histogram-based entry points, and the constructed histogram counts each
symbol's occurrences among the samples. -/
theorem encoder_fromSamples_is_composition (xs : List Nat) (policy : RenormingPolicy)
    (prec : Nat) :
    makeEncoderFromSamplesAuto xs policy =
        makeEncoderFromHistogramAuto (makeHistogramFromSamples xs) policy ∧
    makeEncoderFromSamplesPrec xs prec policy =
        makeEncoderFromHistogramPrec (makeHistogramFromSamples xs) prec policy ∧
    makeHistogramFromSamples xs = Hist.addSamples ⟨[]⟩ xs ∧
    ∀ s, (makeHistogramFromSamples xs).counts.getD s 0 = xs.count s := by
  refine ⟨rfl, rfl, rfl, fun s => ?_⟩
  show (xs.foldl listIncAt []).getD s 0 = xs.count s
  rw [foldl_listIncAt_getD]
  simp

/-- C5: the concrete scenario — samples `[0,0,1]` at precision 2 renormalize
to frequencies `[3, 1]` with cumulative ranges `[0,3)` and `[3,4)`; encoding
`[0,0,1]` and decoding reproduces `[0,0,1]` exactly with all emitted words
consumed, and the decoder table resolves slot 2 to symbol 0 and slot 3 to
symbol 1. -/
theorem concrete_scenario_0_0_1 :
    (makeHistogramFromSamples [0, 0, 1]).counts = [2, 1] ∧
    renorm [2, 1] 2 = Except.ok ⟨[3, 1], 2⟩ ∧
    cumFreq [3, 1] 0 = 0 ∧ cumFreq [3, 1] 0 + [3, 1].getD 0 0 = 3 ∧
    cumFreq [3, 1] 1 = 3 ∧ cumFreq [3, 1] 1 + [3, 1].getD 1 0 = 4 ∧
    decodeAll 2 16 4 [3, 1] 3 (encodeAll 2 16 4 [3, 1] [0, 0, 1]) = ([0, 0, 1], (16, [])) ∧
    slotLookup [3, 1] 2 = some 0 ∧
    slotLookup [3, 1] 3 = some 1 :=
  ⟨by decide, by rfl, by decide, by decide, by decide, by decide, by decide, by decide, by decide⟩

/-! ### Decoder-table lemmas -/

/-- Cumulative start of symbol 0. -/
theorem cumFreq_zero (l : List Nat) : cumFreq l 0 = 0 := by
  simp [cumFreq]

/-- Cumulative start below a cons cell. -/
theorem cumFreq_cons_succ (f : Nat) (rest : List Nat) (t : Nat) :
    cumFreq (f :: rest) (t + 1) = f + cumFreq rest t := by
  simp [cumFreq, List.take_succ_cons]

/-- Slot lookup succeeds with symbol `s` exactly when the slot lies in the
cumulative range `[cumulativeStart, cumulativeStart + frequency)` of `s`. -/
theorem slotLookup_eq_some_iff (l : List Nat) (slot s : Nat) :
    slotLookup l slot = some s ↔
      s < l.length ∧ cumFreq l s ≤ slot ∧ slot < cumFreq l s + l.getD s 0 := by
  induction l generalizing slot s with
  | nil => simp [slotLookup]
  | cons f rest ih =>
    unfold slotLookup
    by_cases h : slot < f
    · rw [if_pos h]
      cases s with
      | zero =>
        simp only [cumFreq_zero, List.getD_cons_zero]
        constructor
        · intro
          exact ⟨by simp, by omega, by omega⟩
        · intro
          trivial
      | succ t =>
        simp only [cumFreq_cons_succ]
        constructor
        · intro hcontra
          exact absurd hcontra (by simp)
        · intro ht
          omega
    · rw [if_neg h]
      cases s with
      | zero =>
        simp only [cumFreq_zero, List.getD_cons_zero]
        constructor
        · intro hcontra
          rcases hmap : slotLookup rest (slot - f) with _ | t <;> rw [hmap] at hcontra <;>
            simp at hcontra
        · intro ht
          omega
      | succ t =>
        have hmap : (slotLookup rest (slot - f)).map (· + 1) = some (t + 1) ↔
            slotLookup rest (slot - f) = some t := by
          rcases hm : slotLookup rest (slot - f) with _ | u <;> simp
        rw [hmap, ih]
        simp only [cumFreq_cons_succ, List.length_cons, List.getD_cons_succ]
        omega

/-- Every slot strictly below the total frequency mass resolves to some
symbol. -/
theorem slotLookup_isSome (l : List Nat) (slot : Nat) (h : slot < l.sum) :
    ∃ s, slotLookup l slot = some s := by
  induction l generalizing slot with
  | nil => simp at h
  | cons f rest ih =>
    unfold slotLookup
    by_cases hf : slot < f
    · exact ⟨0, by rw [if_pos hf]⟩
    · have hs : slot - f < rest.sum := by
        simp only [List.sum_cons] at h
        omega
      obtain ⟨t, ht⟩ := ih (slot - f) hs
      exact ⟨t + 1, by rw [if_neg hf, ht]; rfl⟩

/-- C3: for a renormalized model the cumulative ranges of the symbols
partition `[0, 2^precision)` exactly — every slot in the domain is resolved
by the decoder table to precisely the one symbol whose range contains it. -/
theorem decoder_table_partition (freqs : List Nat) (p slot : Nat)
    (hsum : freqs.sum = 2 ^ p) (hslot : slot < 2 ^ p) :
    ∃ s, slotLookup freqs slot = some s ∧
      ∀ t, (t < freqs.length ∧ cumFreq freqs t ≤ slot ∧
              slot < cumFreq freqs t + freqs.getD t 0) ↔ t = s := by
  obtain ⟨s, hs⟩ := slotLookup_isSome freqs slot (by omega)
  refine ⟨s, hs, fun t => ⟨fun ht => ?_, fun ht => ?_⟩⟩
  · have h2 := (slotLookup_eq_some_iff freqs slot t).mpr ht
    rw [hs] at h2
    exact (Option.some.injEq _ _ ▸ h2).symm
  · subst ht
    exact (slotLookup_eq_some_iff freqs slot t).mp hs

/-- C3 witness: the model `[3, 1]` at precision 2, slot 2. -/
theorem decoder_table_partition_witness :
    ([3, 1] : List Nat).sum = 2 ^ 2 ∧ 2 < 2 ^ 2 ∧
      ∃ s, slotLookup [3, 1] 2 = some s ∧
        ∀ t, (t < ([3, 1] : List Nat).length ∧ cumFreq [3, 1] t ≤ 2 ∧
                2 < cumFreq [3, 1] t + ([3, 1] : List Nat).getD t 0) ↔ t = s :=
  ⟨by decide, by decide, decoder_table_partition [3, 1] 2 2 (by decide) (by decide)⟩

/-! ### Round-trip correctness of the coder state machines

Throughout, the renormalization lower bound is `L = m * 2^p` with `m ≥ 1`
(the configured lower bound is a power of two at least `2^precision`, e.g.
`2^31` for the 64-bit coder), the stream words carry `b ≥ 1` bits, and the
inter-symbol state invariant is `L ≤ x < L * 2^b`. -/

/-- A symbol's cumulative range never extends past the total mass. -/
theorem cumFreq_getD_le_sum (l : List Nat) (s : Nat) :
    cumFreq l s + l.getD s 0 ≤ l.sum := by
  by_cases h : s < l.length
  · have hsplit := List.sum_take_add_sum_drop l s
    have hdrop : l.drop s = l[s] :: l.drop (s + 1) := List.drop_eq_getElem_cons h
    have hget : l.getD s 0 = l[s] := List.getD_eq_getElem l 0 h
    have hs2 : (l.drop s).sum = l[s] + (l.drop (s + 1)).sum := by
      rw [hdrop, List.sum_cons]
    unfold cumFreq
    omega
  · have hget : l.getD s 0 = 0 := by
      rw [List.getD_eq_getElem?_getD, List.getElem?_eq_none_iff.mpr (by omega)]
      rfl
    have htake : l.take s = l := List.take_of_length_le (by omega)
    unfold cumFreq
    rw [hget, htake]
    omega

/-- Comparing the updated state against a multiple of `2^p` is the same as
comparing the input state against the matching multiple of the symbol
frequency. -/
theorem encUpdate_ge_mul_iff (p f c K x : Nat) (hf : 1 ≤ f) (hcf : c + f ≤ 2 ^ p) :
    K * 2 ^ p ≤ encUpdate p f c x ↔ K * f ≤ x := by
  have hr : x % f < f := Nat.mod_lt x (by omega)
  unfold encUpdate
  constructor
  · intro h
    by_contra hlt
    push_neg at hlt
    have hdiv : x / f < K := (Nat.div_lt_iff_lt_mul (by omega)).mpr hlt
    have h2 : (x / f + 1) * 2 ^ p ≤ K * 2 ^ p := Nat.mul_le_mul_right _ (by omega)
    have h3 : (x / f + 1) * 2 ^ p = x / f * 2 ^ p + 2 ^ p := by ring
    omega
  · intro h
    have h1 : K ≤ x / f := (Nat.le_div_iff_mul_le (by omega)).mpr h
    have h2 : K * 2 ^ p ≤ x / f * 2 ^ p := Nat.mul_le_mul_right _ h1
    omega

/-- The state update never shrinks the state. -/
theorem le_encUpdate (p f c x : Nat) (hfp : f ≤ 2 ^ p) :
    x ≤ encUpdate p f c x := by
  have h1 : x / f * f ≤ x / f * 2 ^ p := Nat.mul_le_mul_left _ hfp
  have h2 : f * (x / f) + x % f = x := Nat.div_add_mod x f
  unfold encUpdate
  have h3 : f * (x / f) = x / f * f := Nat.mul_comm _ _
  omega

/-- A state at or above the lower bound triggers no decoder read. -/
theorem decRead_of_ge (b L x : Nat) (ws : List Nat) (h : L ≤ x) :
    decRead b L x ws = (x, ws) := by
  cases ws with
  | nil => rfl
  | cons w rest =>
    unfold decRead
    rw [if_neg (by omega)]

/-- Unfolding equation of the decoder read loop on a pending word. -/
theorem decRead_cons (b L x w : Nat) (rest : List Nat) (h : x < L) :
    decRead b L x (w :: rest) = decRead b L (x * 2 ^ b + w) rest := by
  simp only [decRead]
  rw [if_pos h]

/-- Core inversion of the encoder renormalization loop: the loop exits with
an updated state inside the range, the exit state is the input state or at
least `m * f`, and reading the emitted words back from the exit state is the
same as reading from the input state directly. -/
theorem encEmitGo_spec (p b m f c : Nat) (hm : 0 < m) (hb : 0 < b) (hf : 1 ≤ f)
    (hcf : c + f ≤ 2 ^ p) :
    ∀ fuel x out, x < fuel → x < m * 2 ^ p * 2 ^ b →
      encUpdate p f c (encEmitGo p b (m * 2 ^ p * 2 ^ b) f c fuel x out).1 <
          m * 2 ^ p * 2 ^ b ∧
      ((encEmitGo p b (m * 2 ^ p * 2 ^ b) f c fuel x out).1 = x ∨
        m * f ≤ (encEmitGo p b (m * 2 ^ p * 2 ^ b) f c fuel x out).1) ∧
      decRead b (m * 2 ^ p) (encEmitGo p b (m * 2 ^ p * 2 ^ b) f c fuel x out).1
          (encEmitGo p b (m * 2 ^ p * 2 ^ b) f c fuel x out).2 =
        decRead b (m * 2 ^ p) x out := by
  have hp1 : 0 < 2 ^ p := Nat.pos_pow_of_pos p (by omega)
  have hb1 : 0 < 2 ^ b := Nat.pos_pow_of_pos b (by omega)
  have hb2 : 2 ≤ 2 ^ b := by
    calc 2 = 2 ^ 1 := by norm_num
    _ ≤ 2 ^ b := Nat.pow_le_pow_right (by omega) hb
  have hpB : 2 ^ p ≤ m * 2 ^ p * 2 ^ b := by
    have h1 : 1 * 2 ^ p * 1 ≤ m * 2 ^ p * 2 ^ b :=
      Nat.mul_le_mul (Nat.mul_le_mul_right _ hm) (by omega)
    omega
  intro fuel
  induction fuel with
  | zero =>
    intro x out hx
    omega
  | succ fuel ih =>
    intro x out hfuel hxB
    simp only [encEmitGo]
    by_cases hcond : m * 2 ^ p * 2 ^ b ≤ encUpdate p f c x
    · rw [if_pos hcond]
      have hx1 : 1 ≤ x := by
        by_contra h0
        push_neg at h0
        have hx0 : x = 0 := by omega
        subst hx0
        have hc0 : encUpdate p f c 0 = c := by
          simp [encUpdate]
        rw [hc0] at hcond
        omega
      have hdivlt : x / 2 ^ b < x := Nat.div_lt_self hx1 hb2
      have hdivle : x / 2 ^ b ≤ x := Nat.div_le_self x _
      obtain ⟨ih1, ih2, ih3⟩ :=
        ih (x / 2 ^ b) (x % 2 ^ b :: out) (by omega) (by omega)
      refine ⟨ih1, ?_, ?_⟩
      · right
        have hxmf : m * f ≤ x / 2 ^ b := by
          have hc2 : (m * 2 ^ b) * f ≤ x := by
            apply (encUpdate_ge_mul_iff p f c (m * 2 ^ b) x hf hcf).mp
            calc m * 2 ^ b * 2 ^ p = m * 2 ^ p * 2 ^ b := by ring
            _ ≤ encUpdate p f c x := hcond
          apply (Nat.le_div_iff_mul_le hb1).mpr
          calc m * f * 2 ^ b = m * 2 ^ b * f := by ring
          _ ≤ x := hc2
        rcases ih2 with heq | hge
        · omega
        · exact hge
      · rw [ih3]
        have hxL : x / 2 ^ b < m * 2 ^ p := by
          apply (Nat.div_lt_iff_lt_mul hb1).mpr
          omega
        have hdm : x / 2 ^ b * 2 ^ b + x % 2 ^ b = x := by
          have h := Nat.div_add_mod x (2 ^ b)
          have h2 : 2 ^ b * (x / 2 ^ b) = x / 2 ^ b * 2 ^ b := Nat.mul_comm _ _
          omega
        rw [decRead_cons _ _ _ _ _ hxL, hdm]
    · rw [if_neg hcond]
      refine ⟨?_, Or.inl rfl, rfl⟩
      show encUpdate p f c x < m * 2 ^ p * 2 ^ b
      omega

/-- One-symbol inversion: encoding a modelled symbol from a state inside
`[L, L * 2^b)` keeps the state inside the range, and the decoder step
recovers exactly that symbol, the previous state, and the previous word
list. -/
theorem encStep_spec (freqs : List Nat) (p m b s x : Nat) (tail : List Nat)
    (hsum : freqs.sum = 2 ^ p) (hs : s < freqs.length) (hf : 1 ≤ freqs.getD s 0)
    (hm : 0 < m) (hb : 0 < b)
    (hx1 : m * 2 ^ p ≤ x) (hx2 : x < m * 2 ^ p * 2 ^ b) :
    m * 2 ^ p ≤ (encStep p (m * 2 ^ p) b freqs (x, tail) s).1 ∧
    (encStep p (m * 2 ^ p) b freqs (x, tail) s).1 < m * 2 ^ p * 2 ^ b ∧
    decStep p (m * 2 ^ p) b freqs (encStep p (m * 2 ^ p) b freqs (x, tail) s) =
      (some s, (x, tail)) := by
  have hp1 : 0 < 2 ^ p := Nat.pos_pow_of_pos p (by omega)
  set f := freqs.getD s 0 with hfdef
  set c := cumFreq freqs s with hcdef
  have hcf : c + f ≤ 2 ^ p := hsum ▸ cumFreq_getD_le_sum freqs s
  obtain ⟨hlt, hcase, hread⟩ :=
    encEmitGo_spec p b m f c hm hb hf hcf (x + 1) x tail (by omega) hx2
  set xe := (encEmitGo p b (m * 2 ^ p * 2 ^ b) f c (x + 1) x tail).1 with hxedef
  set ws := (encEmitGo p b (m * 2 ^ p * 2 ^ b) f c (x + 1) x tail).2 with hwsdef
  have hstep : encStep p (m * 2 ^ p) b freqs (x, tail) s = (encUpdate p f c xe, ws) := rfl
  have hge : m * 2 ^ p ≤ encUpdate p f c xe := by
    rcases hcase with heq | hmf
    · have hle := le_encUpdate p f c xe (by omega)
      omega
    · exact (encUpdate_ge_mul_iff p f c m xe hf hcf).mpr hmf
  refine ⟨by rw [hstep]; exact hge, by rw [hstep]; exact hlt, ?_⟩
  rw [hstep]
  have hmodf : xe % f < f := Nat.mod_lt xe (by omega)
  have hsplit : encUpdate p f c xe = (xe % f + c) + 2 ^ p * (xe / f) := by
    unfold encUpdate
    ring
  have hslot : encUpdate p f c xe % 2 ^ p = xe % f + c := by
    rw [hsplit, Nat.add_mul_mod_self_left, Nat.mod_eq_of_lt (by omega)]
  have hdiv : encUpdate p f c xe / 2 ^ p = xe / f := by
    rw [hsplit, Nat.add_mul_div_left _ _ hp1, Nat.div_eq_of_lt (by omega)]
    omega
  have hlook : slotLookup freqs (encUpdate p f c xe % 2 ^ p) = some s := by
    rw [hslot]
    exact (slotLookup_eq_some_iff freqs (xe % f + c) s).mpr ⟨hs, by omega, by omega⟩
  have hx2e : f * (encUpdate p f c xe / 2 ^ p) + encUpdate p f c xe % 2 ^ p - c = xe := by
    rw [hdiv, hslot]
    have hdm : f * (xe / f) + xe % f = xe := Nat.div_add_mod xe f
    omega
  show decStep p (m * 2 ^ p) b freqs (encUpdate p f c xe, ws) = (some s, (x, tail))
  unfold decStep
  simp only [hlook]
  rw [← hfdef, ← hcdef, hx2e, hread, decRead_of_ge _ _ _ _ hx1]

/-- Encoder state invariant: starting at the lower bound, every inter-symbol
state stays inside `[L, L * 2^b)`. -/
theorem encodeAll_range (freqs : List Nat) (p m b : Nat) (syms : List Nat)
    (hsum : freqs.sum = 2 ^ p) (hm : 0 < m) (hb : 0 < b)
    (hsupp : ∀ s ∈ syms, s < freqs.length ∧ 1 ≤ freqs.getD s 0) :
    m * 2 ^ p ≤ (encodeAll p (m * 2 ^ p) b freqs syms).1 ∧
      (encodeAll p (m * 2 ^ p) b freqs syms).1 < m * 2 ^ p * 2 ^ b := by
  have hp1 : 0 < 2 ^ p := Nat.pos_pow_of_pos p (by omega)
  have hb2 : 2 ≤ 2 ^ b := by
    calc 2 = 2 ^ 1 := by norm_num
    _ ≤ 2 ^ b := Nat.pow_le_pow_right (by omega) hb
  induction syms with
  | nil =>
    refine ⟨Nat.le_refl _, ?_⟩
    have hL : 0 < m * 2 ^ p := Nat.mul_pos hm hp1
    calc m * 2 ^ p = m * 2 ^ p * 1 := by omega
    _ < m * 2 ^ p * 2 ^ b := (Nat.mul_lt_mul_left hL).mpr (by omega)
  | cons s rest ih =>
    obtain ⟨hx1, hx2⟩ := ih (fun t ht => hsupp t (List.mem_cons_of_mem s ht))
    obtain ⟨hs, hf⟩ := hsupp s (List.mem_cons_self s rest)
    have hspec := encStep_spec freqs p m b s (encodeAll p (m * 2 ^ p) b freqs rest).1
      (encodeAll p (m * 2 ^ p) b freqs rest).2 hsum hs hf hm hb hx1 hx2
    exact ⟨hspec.1, hspec.2.1⟩

/-- Single-stream round-trip: decoding the encoder output with the same
renormalized model reproduces the symbols in original order, consumes every
emitted word, and returns the state to the lower bound. -/
theorem roundtrip_single (freqs : List Nat) (p m b : Nat) (syms : List Nat)
    (hsum : freqs.sum = 2 ^ p) (hm : 0 < m) (hb : 0 < b)
    (hsupp : ∀ s ∈ syms, s < freqs.length ∧ 1 ≤ freqs.getD s 0) :
    decodeAll p (m * 2 ^ p) b freqs syms.length (encodeAll p (m * 2 ^ p) b freqs syms) =
      (syms, (m * 2 ^ p, [])) := by
  induction syms with
  | nil => rfl
  | cons s rest ih =>
    have hrest : ∀ t ∈ rest, t < freqs.length ∧ 1 ≤ freqs.getD t 0 :=
      fun t ht => hsupp t (List.mem_cons_of_mem s ht)
    obtain ⟨hs, hf⟩ := hsupp s (List.mem_cons_self s rest)
    obtain ⟨hx1, hx2⟩ := encodeAll_range freqs p m b rest hsum hm hb hrest
    have hspec := encStep_spec freqs p m b s (encodeAll p (m * 2 ^ p) b freqs rest).1
      (encodeAll p (m * 2 ^ p) b freqs rest).2 hsum hs hf hm hb hx1 hx2
    have hdec := hspec.2.2
    show decodeAll p (m * 2 ^ p) b freqs (rest.length + 1)
        (encStep p (m * 2 ^ p) b freqs (encodeAll p (m * 2 ^ p) b freqs rest) s) =
      (s :: rest, (m * 2 ^ p, []))
    simp only [decodeAll, hdec, ih hrest]

/-- Block partitioning concatenates back to the original sequence. -/
theorem splitBlocks_flatten (n : Nat) (xs : List Nat) (hn : 0 < n) :
    (splitBlocks n xs).flatten = xs := by
  induction n generalizing xs with
  | zero => omega
  | succ n ih =>
    simp only [splitBlocks, List.flatten_cons]
    cases n with
    | zero =>
      simp [splitBlocks, List.take_of_length_le]
    | succ k =>
      rw [ih (xs.drop ((xs.length + (k + 1)) / (k + 1 + 1))) (by omega)]
      exact List.take_append_drop _ xs

/-- C1: multi-stream round-trip — for every valid renormalized model (any
histogram representation renormalizes to one), every stream count `n ≥ 1`,
and every symbol sequence drawn from the model's support, decoding the
encoder's per-stream outputs reproduces the sequence exactly and, on each
stream, consumes exactly the words the encoder emitted there (none are left
over and the state returns to the lower bound). -/
theorem multi_stream_roundtrip (freqs : List Nat) (p m b n : Nat) (syms : List Nat)
    (hsum : freqs.sum = 2 ^ p) (hm : 0 < m) (hb : 0 < b) (hn : 0 < n)
    (hsupp : ∀ s ∈ syms, s < freqs.length ∧ 1 ≤ freqs.getD s 0) :
    decodeMulti p (m * 2 ^ p) b freqs ((splitBlocks n syms).map List.length)
        (encodeMulti p (m * 2 ^ p) b n freqs syms) = syms ∧
    ∀ pr ∈ ((splitBlocks n syms).map List.length).zip
        (encodeMulti p (m * 2 ^ p) b n freqs syms),
      (decodeAll p (m * 2 ^ p) b freqs pr.1 pr.2).2 = (m * 2 ^ p, []) := by
  have hflat : (splitBlocks n syms).flatten = syms := splitBlocks_flatten n syms hn
  have hchsupp : ∀ ch ∈ splitBlocks n syms, ∀ s ∈ ch,
      s < freqs.length ∧ 1 ≤ freqs.getD s 0 := by
    intro ch hch s hs
    exact hsupp s (by rw [← hflat]; exact List.mem_flatten.mpr ⟨ch, hch, hs⟩)
  have hzip : ((splitBlocks n syms).map List.length).zip
      (encodeMulti p (m * 2 ^ p) b n freqs syms) =
      (splitBlocks n syms).map
        (fun ch => (ch.length, encodeAll p (m * 2 ^ p) b freqs ch)) := by
    rw [encodeMulti]
    exact List.zip_map' List.length (encodeAll p (m * 2 ^ p) b freqs) (splitBlocks n syms)
  constructor
  · rw [decodeMulti, hzip, List.map_map]
    have hmap : (splitBlocks n syms).map
        ((fun pr => (decodeAll p (m * 2 ^ p) b freqs pr.1 pr.2).1) ∘
          (fun ch => (ch.length, encodeAll p (m * 2 ^ p) b freqs ch))) =
        (splitBlocks n syms).map id := by
      apply List.map_congr_left
      intro ch hch
      show (decodeAll p (m * 2 ^ p) b freqs ch.length
          (encodeAll p (m * 2 ^ p) b freqs ch)).1 = ch
      rw [roundtrip_single freqs p m b ch hsum hm hb (hchsupp ch hch)]
    rw [hmap, List.map_id, hflat]
  · intro pr hpr
    rw [hzip] at hpr
    obtain ⟨ch, hch, hpr2⟩ := List.mem_map.mp hpr
    rw [← hpr2]
    show (decodeAll p (m * 2 ^ p) b freqs ch.length
        (encodeAll p (m * 2 ^ p) b freqs ch)).2 = (m * 2 ^ p, [])
    rw [roundtrip_single freqs p m b ch hsum hm hb (hchsupp ch hch)]

/-- C1 witness: the model `[3, 1]` at precision 2, lower bound `4 * 2^2`,
4-bit words, 2 streams, sequence `[0, 0, 1]`. -/
theorem multi_stream_roundtrip_witness :
    ([3, 1] : List Nat).sum = 2 ^ 2 ∧
    (∀ s ∈ [0, 0, 1], s < ([3, 1] : List Nat).length ∧ 1 ≤ ([3, 1] : List Nat).getD s 0) ∧
    (decodeMulti 2 (4 * 2 ^ 2) 4 [3, 1] ((splitBlocks 2 [0, 0, 1]).map List.length)
        (encodeMulti 2 (4 * 2 ^ 2) 4 2 [3, 1] [0, 0, 1]) = [0, 0, 1] ∧
      ∀ pr ∈ ((splitBlocks 2 [0, 0, 1]).map List.length).zip
          (encodeMulti 2 (4 * 2 ^ 2) 4 2 [3, 1] [0, 0, 1]),
        (decodeAll 2 (4 * 2 ^ 2) 4 [3, 1] pr.1 pr.2).2 = (4 * 2 ^ 2, [])) :=
  ⟨by decide, by decide,
    multi_stream_roundtrip [3, 1] 2 4 4 2 [0, 0, 1] (by decide) (by decide) (by decide)
      (by decide) (by decide)⟩

/-! ### Renormalization correction-pass lemmas -/

/-- Sum bookkeeping for a single table write. -/
theorem sum_set_add (l : List Nat) (i v : Nat) (hi : i < l.length) :
    (l.set i v).sum + l.getD i 0 = l.sum + v := by
  induction l generalizing i with
  | nil => simp at hi
  | cons a t ih =>
    cases i with
    | zero =>
      simp only [List.set, List.sum_cons, List.getD_cons_zero]
      omega
    | succ j =>
      have hj : j < t.length := by
        simp at hi
        omega
      have h := ih j hj
      simp only [List.set, List.sum_cons, List.getD_cons_succ]
      omega

/-- Indexed reading of a mapped table below its length. -/
theorem getD_map_lt (g : Nat → Nat) (l : List Nat) (i : Nat) (h : i < l.length) :
    (l.map g).getD i 0 = g (l.getD i 0) := by
  rw [List.getD_eq_getElem (l.map g) 0 (by simpa using h), List.getD_eq_getElem l 0 h]
  simp

/-- Reading past the end of a table gives zero. -/
theorem getD_ge_len (l : List Nat) (i : Nat) (h : l.length ≤ i) : l.getD i 0 = 0 := by
  rw [List.getD_eq_getElem?_getD, List.getElem?_eq_none_iff.mpr h]
  rfl

/-- The whole-table sum is the sum of the indexed reads. -/
theorem listSumIndex (l : List Nat) :
    ((List.range l.length).map (fun i => l.getD i 0)).sum = l.sum := by
  induction l with
  | nil => simp
  | cons a t ih =>
    have hr : List.range (t.length + 1) = 0 :: (List.range t.length).map Nat.succ :=
      List.range_succ_eq_map t.length
    simp only [List.length_cons, hr, List.map_cons, List.map_map, List.sum_cons,
      List.getD_cons_zero]
    have hc : (List.range t.length).map ((fun i => (a :: t).getD i 0) ∘ Nat.succ) =
        (List.range t.length).map (fun i => t.getD i 0) := by
      apply List.map_congr_left
      intro i _
      simp
    rw [hc, ih]

/-- Splitting the sum of mapped values over a filter and its complement. -/
theorem sum_map_filter_split (g : Nat → Nat) (l : List Nat) (pr : Nat → Bool) :
    ((l.filter pr).map g).sum + ((l.filter (fun a => ! pr a)).map g).sum = (l.map g).sum := by
  induction l with
  | nil => simp
  | cons a t ih =>
    by_cases h : pr a <;> simp [h] <;> omega

/-- A table that vanishes outside a duplicate-free index list sums to the
sum of its reads over that list. -/
theorem sum_eq_sum_order (freqs order : List Nat) (hnd : order.Nodup)
    (hlt : ∀ i ∈ order, i < freqs.length)
    (hz : ∀ i, i < freqs.length → i ∉ order → freqs.getD i 0 = 0) :
    (order.map (fun i => freqs.getD i 0)).sum = freqs.sum := by
  have hsplit := sum_map_filter_split (fun i => freqs.getD i 0)
    (List.range freqs.length) (fun i => decide (i ∈ order))
  have hzero : (((List.range freqs.length).filter
      (fun a => ! decide (a ∈ order))).map (fun i => freqs.getD i 0)).sum = 0 := by
    apply List.sum_eq_zero
    intro x hx
    obtain ⟨i, hi, hix⟩ := List.mem_map.mp hx
    have h2 := List.mem_filter.mp hi
    have h3 : i < freqs.length := List.mem_range.mp h2.1
    have h4 : i ∉ order := by
      have := h2.2
      simp at this
      exact this
    rw [← hix]
    exact hz i h3 h4
  have hperm : List.Perm ((List.range freqs.length).filter (fun i => decide (i ∈ order)))
      order := by
    apply (List.perm_ext_iff_of_nodup (List.Nodup.filter _ (List.nodup_range _)) hnd).mpr
    intro a
    constructor
    · intro ha
      have h2 := List.mem_filter.mp ha
      simpa using h2.2
    · intro ha
      exact List.mem_filter.mpr ⟨List.mem_range.mpr (hlt a ha), by simpa using ha⟩
  have hpsum : (((List.range freqs.length).filter
      (fun i => decide (i ∈ order))).map (fun i => freqs.getD i 0)).sum =
      (order.map (fun i => freqs.getD i 0)).sum :=
    (hperm.map (fun i => freqs.getD i 0)).sum_eq
  rw [listSumIndex] at hsplit
  omega

/-- Full behaviour of one incrementing pass. -/
theorem incPass_spec (order : List Nat) :
    ∀ (freqs : List Nat) (r : Nat), (∀ s ∈ order, s < freqs.length) →
      (incPass freqs order r).1.length = freqs.length ∧
      (incPass freqs order r).2 ≤ r ∧
      (incPass freqs order r).1.sum + (incPass freqs order r).2 = freqs.sum + r ∧
      (∀ i, freqs.getD i 0 ≤ (incPass freqs order r).1.getD i 0) ∧
      (∀ i, i ∉ order → (incPass freqs order r).1.getD i 0 = freqs.getD i 0) ∧
      (order ≠ [] → 0 < r → (incPass freqs order r).2 < r) := by
  induction order with
  | nil =>
    intro freqs r _
    exact ⟨rfl, Nat.le_refl r, rfl, fun i => Nat.le_refl _, fun i _ => rfl,
      fun hne _ => absurd rfl hne⟩
  | cons s rest ih =>
    intro freqs r hlt
    cases r with
    | zero =>
      exact ⟨rfl, Nat.le_refl 0, rfl, fun i => Nat.le_refl _, fun i _ => rfl,
        fun _ h0 => absurd h0 (by omega)⟩
    | succ r =>
      have hs : s < freqs.length := hlt s (List.mem_cons_self s rest)
      have hlen : (freqs.set s (freqs.getD s 0 + 1)).length = freqs.length :=
        List.length_set freqs s _
      have hlt2 : ∀ t ∈ rest, t < (freqs.set s (freqs.getD s 0 + 1)).length := by
        intro t ht
        rw [hlen]
        exact hlt t (List.mem_cons_of_mem s ht)
      obtain ⟨ih1, ih2, ih3, ih4, ih5, _⟩ := ih (freqs.set s (freqs.getD s 0 + 1)) r hlt2
      have hsum : (freqs.set s (freqs.getD s 0 + 1)).sum = freqs.sum + 1 := by
        have := sum_set_add freqs s (freqs.getD s 0 + 1) hs
        omega
      have hshow : incPass freqs (s :: rest) (r + 1) =
          incPass (freqs.set s (freqs.getD s 0 + 1)) rest r := rfl
      rw [hshow]
      refine ⟨by rw [ih1, hlen], by omega, by omega, ?_, ?_, fun _ _ => by omega⟩
      · intro i
        have h2 := ih4 i
        have h3 : freqs.getD i 0 ≤ (freqs.set s (freqs.getD s 0 + 1)).getD i 0 := by
          rw [listGetD_set freqs s _ i hs]
          by_cases hi : i = s <;> simp [hi]
        omega
      · intro i hi
        have hi1 : i ≠ s := fun h => hi (h ▸ List.mem_cons_self s rest)
        have hi2 : i ∉ rest := fun h => hi (List.mem_cons_of_mem s h)
        rw [ih5 i hi2, listGetD_set freqs s _ i hs, if_neg hi1]

/-- Full behaviour of the positive-remainder distribution loop. -/
theorem distributeInc_spec :
    ∀ (fuel : Nat) (freqs order : List Nat) (r : Nat),
      (∀ s ∈ order, s < freqs.length) → order ≠ [] → r ≤ fuel →
      (distributeInc fuel freqs order r).length = freqs.length ∧
      (distributeInc fuel freqs order r).sum = freqs.sum + r ∧
      (∀ i, freqs.getD i 0 ≤ (distributeInc fuel freqs order r).getD i 0) ∧
      (∀ i, i ∉ order → (distributeInc fuel freqs order r).getD i 0 = freqs.getD i 0) := by
  intro fuel
  induction fuel with
  | zero =>
    intro freqs order r hlt hne hr
    have hr0 : r = 0 := by omega
    subst hr0
    exact ⟨rfl, show freqs.sum = freqs.sum + 0 by omega, fun i => Nat.le_refl _,
      fun i _ => rfl⟩
  | succ fuel ih =>
    intro freqs order r hlt hne hr
    by_cases hr0 : r = 0
    · subst hr0
      have hshow0 : distributeInc (fuel + 1) freqs order 0 = freqs := by
        show (if 0 = 0 then freqs else _) = freqs
        rw [if_pos rfl]
      rw [hshow0]
      exact ⟨rfl, by omega, fun i => Nat.le_refl _, fun i _ => rfl⟩
    · obtain ⟨hp1, hp2, hp3, hp4, hp5, hp6⟩ := incPass_spec order freqs r hlt
      have hprog : (incPass freqs order r).2 < r := hp6 hne (by omega)
      have hlt2 : ∀ s ∈ order, s < (incPass freqs order r).1.length := by
        intro s hs
        rw [hp1]
        exact hlt s hs
      obtain ⟨ihA, ihB, ihC, ihD⟩ :=
        ih (incPass freqs order r).1 order (incPass freqs order r).2 hlt2 hne (by omega)
      have hshow : distributeInc (fuel + 1) freqs order r =
          distributeInc fuel (incPass freqs order r).1 order (incPass freqs order r).2 := by
        show (if r = 0 then freqs else _) = _
        rw [if_neg hr0]
      rw [hshow]
      refine ⟨by rw [ihA, hp1], by omega, ?_, ?_⟩
      · intro i
        have := ihC i
        have := hp4 i
        omega
      · intro i hi
        rw [ihD i hi, hp5 i hi]

/-- Full behaviour of one decrementing pass: it only lowers frequencies that
are above 1, one unit per visited symbol, consuming one remainder unit per
decrement. -/
theorem decPass_spec (order : List Nat) :
    ∀ (freqs : List Nat) (r : Nat), (∀ s ∈ order, s < freqs.length) →
      (decPass freqs order r).1.length = freqs.length ∧
      (decPass freqs order r).2 ≤ r ∧
      (decPass freqs order r).1.sum + r = freqs.sum + (decPass freqs order r).2 ∧
      (∀ i, (decPass freqs order r).1.getD i 0 ≤ freqs.getD i 0) ∧
      (∀ i, 1 ≤ freqs.getD i 0 → 1 ≤ (decPass freqs order r).1.getD i 0) ∧
      (∀ i, i ∉ order → (decPass freqs order r).1.getD i 0 = freqs.getD i 0) ∧
      ((∃ s ∈ order, 1 < freqs.getD s 0) → 0 < r → (decPass freqs order r).2 < r) := by
  induction order with
  | nil =>
    intro freqs r _
    exact ⟨rfl, Nat.le_refl r, rfl, fun i => Nat.le_refl _, fun i h => h, fun i _ => rfl,
      fun hex _ => absurd hex (by simp)⟩
  | cons s rest ih =>
    intro freqs r hlt
    cases r with
    | zero =>
      exact ⟨rfl, Nat.le_refl 0, rfl, fun i => Nat.le_refl _, fun i h => h, fun i _ => rfl,
        fun _ h0 => absurd h0 (by omega)⟩
    | succ r =>
      have hs : s < freqs.length := hlt s (List.mem_cons_self s rest)
      by_cases hbig : 1 < freqs.getD s 0
      · have hshow : decPass freqs (s :: rest) (r + 1) =
            decPass (freqs.set s (freqs.getD s 0 - 1)) rest r := by
          show (if 1 < freqs.getD s 0 then _ else _) = _
          rw [if_pos hbig]
        have hlen : (freqs.set s (freqs.getD s 0 - 1)).length = freqs.length :=
          List.length_set freqs s _
        have hlt2 : ∀ t ∈ rest, t < (freqs.set s (freqs.getD s 0 - 1)).length := by
          intro t ht
          rw [hlen]
          exact hlt t (List.mem_cons_of_mem s ht)
        obtain ⟨ih1, ih2, ih3, ih4, ih5, ih6, _⟩ :=
          ih (freqs.set s (freqs.getD s 0 - 1)) r hlt2
        have hsum : (freqs.set s (freqs.getD s 0 - 1)).sum + 1 = freqs.sum := by
          have := sum_set_add freqs s (freqs.getD s 0 - 1) hs
          omega
        have hpt : ∀ i, (freqs.set s (freqs.getD s 0 - 1)).getD i 0 =
            if i = s then freqs.getD s 0 - 1 else freqs.getD i 0 :=
          fun i => listGetD_set freqs s _ i hs
        rw [hshow]
        refine ⟨by rw [ih1, hlen], by omega, by omega, ?_, ?_, ?_, fun _ _ => by omega⟩
        · intro i
          have h2 := ih4 i
          have h3 := hpt i
          by_cases hi : i = s
          · subst hi
            rw [if_pos rfl] at h3
            omega
          · rw [if_neg hi] at h3
            omega
        · intro i h1
          apply ih5 i
          have h3 := hpt i
          by_cases hi : i = s
          · subst hi
            rw [if_pos rfl] at h3
            omega
          · rw [if_neg hi] at h3
            omega
        · intro i hi
          have hi1 : i ≠ s := fun h => hi (h ▸ List.mem_cons_self s rest)
          have hi2 : i ∉ rest := fun h => hi (List.mem_cons_of_mem s h)
          rw [ih6 i hi2, hpt i, if_neg hi1]
      · have hshow : decPass freqs (s :: rest) (r + 1) = decPass freqs rest (r + 1) := by
          show (if 1 < freqs.getD s 0 then _ else _) = _
          rw [if_neg hbig]
        have hlt2 : ∀ t ∈ rest, t < freqs.length :=
          fun t ht => hlt t (List.mem_cons_of_mem s ht)
        obtain ⟨ih1, ih2, ih3, ih4, ih5, ih6, ih7⟩ := ih freqs (r + 1) hlt2
        rw [hshow]
        refine ⟨ih1, ih2, ih3, ih4, ih5,
          fun i hi => ih6 i (fun h => hi (List.mem_cons_of_mem s h)), ?_⟩
        intro hex h0
        obtain ⟨t, ht, htbig⟩ := hex
        rcases List.mem_cons.mp ht with hts | htr
        · subst hts
          exact absurd htbig hbig
        · exact ih7 ⟨t, htr, htbig⟩ h0

/-- Full behaviour of the negative-remainder distribution loop, under the
invariant that the remainder plus the symbol count does not exceed the
current mass (which holds whenever the precision admits the alphabet). -/
theorem distributeDec_spec :
    ∀ (fuel : Nat) (freqs order : List Nat) (r : Nat),
      (∀ s ∈ order, s < freqs.length) → order.Nodup →
      (∀ i, i < freqs.length → i ∉ order → freqs.getD i 0 = 0) →
      (∀ i ∈ order, 1 ≤ freqs.getD i 0) →
      r + order.length ≤ freqs.sum → r ≤ fuel →
      (distributeDec fuel freqs order r).sum + r = freqs.sum ∧
      (∀ i ∈ order, 1 ≤ (distributeDec fuel freqs order r).getD i 0) ∧
      (∀ i, (distributeDec fuel freqs order r).getD i 0 ≤ freqs.getD i 0) ∧
      (distributeDec fuel freqs order r).length = freqs.length := by
  intro fuel
  induction fuel with
  | zero =>
    intro freqs order r hlt hnd hz hge1 hinv hr
    have hr0 : r = 0 := by omega
    subst hr0
    exact ⟨show freqs.sum + 0 = freqs.sum by omega, fun i hi => hge1 i hi,
      fun i => Nat.le_refl _, rfl⟩
  | succ fuel ih =>
    intro freqs order r hlt hnd hz hge1 hinv hr
    by_cases hr0 : r = 0
    · subst hr0
      have hshow0 : distributeDec (fuel + 1) freqs order 0 = freqs := by
        show (if 0 = 0 then freqs else _) = freqs
        rw [if_pos rfl]
      rw [hshow0]
      exact ⟨by omega, fun i hi => hge1 i hi, fun i => Nat.le_refl _, rfl⟩
    · have hex : ∃ s ∈ order, 1 < freqs.getD s 0 := by
        by_contra hall
        push_neg at hall
        have hone : ∀ s ∈ order, freqs.getD s 0 = 1 := by
          intro s hsm
          have h1 := hge1 s hsm
          have h2 := hall s hsm
          omega
        have hmapone : order.map (fun i => freqs.getD i 0) =
            order.map (fun _ => 1) :=
          List.map_congr_left hone
        have hsum1 : (order.map (fun i => freqs.getD i 0)).sum = order.length := by
          rw [hmapone]
          induction order with
          | nil => rfl
          | cons a t iht =>
            simp at iht ⊢
            omega
        have hsum2 := sum_eq_sum_order freqs order hnd hlt hz
        omega
      obtain ⟨hp1, hp2, hp3, hp4, hp5, hp6, hp7⟩ := decPass_spec order freqs r hlt
      have hprog : (decPass freqs order r).2 < r := hp7 hex (by omega)
      have hlt2 : ∀ s ∈ order, s < (decPass freqs order r).1.length := by
        intro s hsm
        rw [hp1]
        exact hlt s hsm
      have hz2 : ∀ i, i < (decPass freqs order r).1.length → i ∉ order →
          (decPass freqs order r).1.getD i 0 = 0 := by
        intro i hi hio
        rw [hp6 i hio]
        exact hz i (by omega) hio
      have hge12 : ∀ i ∈ order, 1 ≤ (decPass freqs order r).1.getD i 0 :=
        fun i hi => hp5 i (hge1 i hi)
      have hinv2 : (decPass freqs order r).2 + order.length ≤ (decPass freqs order r).1.sum := by
        omega
      obtain ⟨ihA, ihB, ihC, ihD⟩ := ih (decPass freqs order r).1 order
        (decPass freqs order r).2 hlt2 hnd hz2 hge12 hinv2 (by omega)
      have hshow : distributeDec (fuel + 1) freqs order r =
          distributeDec fuel (decPass freqs order r).1 order (decPass freqs order r).2 := by
        show (if r = 0 then freqs else _) = _
        rw [if_neg hr0]
      rw [hshow]
      refine ⟨by omega, ihB, ?_, by rw [ihD, hp1]⟩
      intro i
      have h2 := ihC i
      have h3 := hp4 i
      omega

/-- Inserting into a list permutes consing onto it. -/
theorem insertBy_perm (le : Nat → Nat → Bool) (x : Nat) (l : List Nat) :
    List.Perm (insertBy le x l) (x :: l) := by
  induction l with
  | nil => exact List.Perm.refl _
  | cons y ys ih =>
    unfold insertBy
    by_cases h : le x y = true
    · rw [if_pos h]
    · rw [if_neg h]
      exact (ih.cons y).trans (List.Perm.swap x y ys)

/-- Sorting permutes the input. -/
theorem sortBy_perm (le : Nat → Nat → Bool) (l : List Nat) :
    List.Perm (sortBy le l) l := by
  induction l with
  | nil => exact List.Perm.refl _
  | cons x xs ih => exact (insertBy_perm le x (sortBy le xs)).trans (ih.cons x)

/-- Membership in the correction-pass order: exactly the in-range symbols
with nonzero raw count. -/
theorem mem_orderOf (counts : List Nat) (i : Nat) :
    i ∈ orderOf counts ↔ i < counts.length ∧ counts.getD i 0 ≠ 0 := by
  unfold orderOf
  rw [(sortBy_perm (freqLe counts) (nonzeroSymbols counts)).mem_iff]
  unfold nonzeroSymbols
  rw [List.mem_filter, List.mem_range]
  simp

/-- The correction-pass order has no duplicate symbols. -/
theorem orderOf_nodup (counts : List Nat) : (orderOf counts).Nodup :=
  ((sortBy_perm (freqLe counts) (nonzeroSymbols counts)).nodup_iff).mpr
    (List.Nodup.filter _ (List.nodup_range _))

/-- The correction-pass order visits every nonzero symbol once. -/
theorem orderOf_length (counts : List Nat) :
    (orderOf counts).length = (nonzeroSymbols counts).length :=
  (sortBy_perm (freqLe counts) (nonzeroSymbols counts)).length_eq

/-- A histogram with nonzero total count has an in-range nonzero symbol. -/
theorem exists_nonzero (counts : List Nat) (h : counts.sum ≠ 0) :
    ∃ i, i < counts.length ∧ counts.getD i 0 ≠ 0 := by
  induction counts with
  | nil => simp at h
  | cons a t ih =>
    by_cases ha : a = 0
    · subst ha
      obtain ⟨i, h1, h2⟩ := ih (by simpa using h)
      refine ⟨i + 1, by simp; omega, by simpa using h2⟩
    · exact ⟨0, by simp, by simpa using ha⟩

/-- The proportional pass preserves the table extent. -/
theorem scaledCounts_length (counts : List Nat) (p : Nat) :
    (scaledCounts counts p).length = counts.length :=
  List.length_map counts _

/-- Pointwise value of the proportional pass. -/
theorem scaledCounts_getD (counts : List Nat) (p i : Nat) (h : i < counts.length) :
    (scaledCounts counts p).getD i 0 =
      if counts.getD i 0 = 0 then 0
      else max 1 (roundDiv (counts.getD i 0 * 2 ^ p) counts.sum) :=
  getD_map_lt _ counts i h

/-- The proportional pass keeps every nonzero symbol at frequency ≥ 1. -/
theorem scaledCounts_ge1 (counts : List Nat) (p i : Nat) (h : i < counts.length)
    (hnz : counts.getD i 0 ≠ 0) : 1 ≤ (scaledCounts counts p).getD i 0 := by
  rw [scaledCounts_getD counts p i h, if_neg hnz]
  exact le_max_left 1 _

/-- The proportional pass sends zero counts (and out-of-range reads) to
zero. -/
theorem scaledCounts_zero (counts : List Nat) (p i : Nat)
    (h : counts.getD i 0 = 0 ∨ counts.length ≤ i) : (scaledCounts counts p).getD i 0 = 0 := by
  by_cases hlen : i < counts.length
  · rcases h with hz | hge
    · rw [scaledCounts_getD counts p i hlen, if_pos hz]
    · omega
  · exact getD_ge_len _ i (by rw [scaledCounts_length]; omega)

/-- Shared outcome of the full renormalization pipeline: frequencies sum to
exactly `2^precision`, every nonzero symbol keeps frequency ≥ 1, and the
table extent is preserved — provided the histogram is non-empty and the
precision admits the alphabet. -/
theorem renormFreqs_spec (counts : List Nat) (p : Nat)
    (h0 : counts.sum ≠ 0) (hcard : (nonzeroSymbols counts).length ≤ 2 ^ p) :
    (renormFreqs counts p).sum = 2 ^ p ∧
    (∀ i, i < counts.length → counts.getD i 0 ≠ 0 → 1 ≤ (renormFreqs counts p).getD i 0) ∧
    (renormFreqs counts p).length = counts.length := by
  have hltord : ∀ s ∈ orderOf counts, s < (scaledCounts counts p).length := by
    intro s hs
    rw [scaledCounts_length]
    exact ((mem_orderOf counts s).mp hs).1
  have hne : orderOf counts ≠ [] := by
    obtain ⟨i, h1, h2⟩ := exists_nonzero counts h0
    exact List.ne_nil_of_mem ((mem_orderOf counts i).mpr ⟨h1, h2⟩)
  have hge1s : ∀ i ∈ orderOf counts, 1 ≤ (scaledCounts counts p).getD i 0 := by
    intro i hi
    obtain ⟨h1, h2⟩ := (mem_orderOf counts i).mp hi
    exact scaledCounts_ge1 counts p i h1 h2
  have hzs : ∀ i, i < (scaledCounts counts p).length → i ∉ orderOf counts →
      (scaledCounts counts p).getD i 0 = 0 := by
    intro i hil hnotin
    rw [scaledCounts_length] at hil
    apply scaledCounts_zero counts p i
    left
    by_contra hnz
    exact hnotin ((mem_orderOf counts i).mpr ⟨hil, hnz⟩)
  have hdef : renormFreqs counts p =
      if (scaledCounts counts p).sum ≤ 2 ^ p then
        distributeInc (2 ^ p - (scaledCounts counts p).sum) (scaledCounts counts p)
          (orderOf counts) (2 ^ p - (scaledCounts counts p).sum)
      else
        distributeDec ((scaledCounts counts p).sum - 2 ^ p) (scaledCounts counts p)
          (orderOf counts) ((scaledCounts counts p).sum - 2 ^ p) := rfl
  rw [hdef]
  by_cases hbr : (scaledCounts counts p).sum ≤ 2 ^ p
  · rw [if_pos hbr]
    obtain ⟨hA, hB, hC, _⟩ := distributeInc_spec (2 ^ p - (scaledCounts counts p).sum)
      (scaledCounts counts p) (orderOf counts) (2 ^ p - (scaledCounts counts p).sum)
      hltord hne (Nat.le_refl _)
    refine ⟨by omega, ?_, by rw [hA, scaledCounts_length]⟩
    intro i hil hnz
    have h1 := scaledCounts_ge1 counts p i hil hnz
    have h2 := hC i
    omega
  · rw [if_neg hbr]
    have hinv : (scaledCounts counts p).sum - 2 ^ p + (orderOf counts).length ≤
        (scaledCounts counts p).sum := by
      have h1 := orderOf_length counts
      omega
    obtain ⟨hA, hB, _, hD⟩ := distributeDec_spec ((scaledCounts counts p).sum - 2 ^ p)
      (scaledCounts counts p) (orderOf counts) ((scaledCounts counts p).sum - 2 ^ p)
      hltord (orderOf_nodup counts) hzs hge1s hinv (Nat.le_refl _)
    refine ⟨by omega, ?_, by rw [hD, scaledCounts_length]⟩
    intro i hil hnz
    exact hB i ((mem_orderOf counts i).mpr ⟨hil, hnz⟩)

/-- C2: for every histogram with nonzero total count and every precision
that admits the alphabet, renormalization succeeds with frequencies summing
exactly to `2^precision`, and every symbol with nonzero raw count keeps a
renormalized frequency of at least 1. -/
theorem renorm_exact (counts : List Nat) (p : Nat)
    (h0 : counts.sum ≠ 0) (hcard : (nonzeroSymbols counts).length ≤ 2 ^ p) :
    ∃ rh, renorm counts p = Except.ok rh ∧ rh.precision = p ∧
      rh.freqs.sum = 2 ^ p ∧
      ∀ i, i < counts.length → counts.getD i 0 ≠ 0 → 1 ≤ rh.freqs.getD i 0 := by
  obtain ⟨hA, hB, _⟩ := renormFreqs_spec counts p h0 hcard
  refine ⟨⟨renormFreqs counts p, p⟩, ?_, rfl, hA, hB⟩
  unfold renorm
  rw [if_neg h0]

/-- C2 witness: the histogram `[2, 1]` at precision 2. -/
theorem renorm_exact_witness :
    ([2, 1] : List Nat).sum ≠ 0 ∧ (nonzeroSymbols [2, 1]).length ≤ 2 ^ 2 ∧
      ∃ rh, renorm [2, 1] 2 = Except.ok rh ∧ rh.precision = 2 ∧
        rh.freqs.sum = 2 ^ 2 ∧
        ∀ i, i < ([2, 1] : List Nat).length → ([2, 1] : List Nat).getD i 0 ≠ 0 →
          1 ≤ rh.freqs.getD i 0 :=
  ⟨by decide, by decide, renorm_exact [2, 1] 2 (by decide) (by decide)⟩

/-- Membership after insertion. -/
theorem mem_insertBy (le : Nat → Nat → Bool) (x z : Nat) (l : List Nat) :
    z ∈ insertBy le x l ↔ z = x ∨ z ∈ l := by
  induction l with
  | nil => simp [insertBy]
  | cons y ys ih =>
    unfold insertBy
    by_cases h : le x y = true
    · rw [if_pos h]
      simp
    · rw [if_neg h]
      simp only [List.mem_cons, ih]
      tauto

/-- Insertion preserves pairwise ordering for a total transitive Boolean
comparison. -/
theorem insertBy_pairwise (le : Nat → Nat → Bool) (R : Nat → Nat → Prop)
    (hT : ∀ a b, le a b = true → R a b) (hF : ∀ a b, le a b = false → R b a)
    (htrans : ∀ a b c, R a b → R b c → R a c) (x : Nat) :
    ∀ l : List Nat, l.Pairwise R → (insertBy le x l).Pairwise R := by
  intro l
  induction l with
  | nil =>
    intro _
    simp [insertBy]
  | cons y ys ih =>
    intro hp
    obtain ⟨hy, hys⟩ := List.pairwise_cons.mp hp
    unfold insertBy
    by_cases h : le x y = true
    · rw [if_pos h]
      apply List.pairwise_cons.mpr
      refine ⟨?_, hp⟩
      intro z hz
      rcases List.mem_cons.mp hz with rfl | hz2
      · exact hT x z h
      · exact htrans x y z (hT x y h) (hy z hz2)
    · rw [if_neg h]
      apply List.pairwise_cons.mpr
      refine ⟨?_, ih hys⟩
      intro z hz
      rcases (mem_insertBy le x z ys).mp hz with rfl | hz2
      · exact hF z y (by simpa using h)
      · exact hy z hz2

/-- The insertion sort produces a pairwise-ordered list. -/
theorem sortBy_pairwise (le : Nat → Nat → Bool) (R : Nat → Nat → Prop)
    (hT : ∀ a b, le a b = true → R a b) (hF : ∀ a b, le a b = false → R b a)
    (htrans : ∀ a b c, R a b → R b c → R a c) :
    ∀ l : List Nat, (sortBy le l).Pairwise R := by
  intro l
  induction l with
  | nil => simp [sortBy]
  | cons x xs ih => exact insertBy_pairwise le R hT hF htrans x (sortBy le xs) ih

/-- The correction-pass order is sorted by descending raw frequency with
ties broken by ascending symbol value. -/
theorem orderOf_sorted (counts : List Nat) :
    (orderOf counts).Pairwise
      (fun a b => counts.getD b 0 < counts.getD a 0 ∨
        (counts.getD a 0 = counts.getD b 0 ∧ a ≤ b)) := by
  apply sortBy_pairwise
  · intro a b h
    simp only [freqLe, Bool.or_eq_true, Bool.and_eq_true, decide_eq_true_eq] at h
    tauto
  · intro a b h
    simp only [freqLe, Bool.or_eq_true, Bool.and_eq_true, decide_eq_true_eq,
      Bool.or_eq_false_iff, Bool.and_eq_false_iff, decide_eq_false_iff_not] at h
    omega
  · intro a b c hab hbc
    omega

/-- C4: renormalization scales every nonzero raw count to
`max 1 (round (rawCount * 2^precision / totalRawCount))`, then distributes
the signed remainder over the nonzero symbols ordered by descending raw
frequency with ties by ascending symbol value (one unit per symbol per
pass), and never drives a nonzero symbol below frequency 1. -/
theorem renorm_correction_algorithm (counts : List Nat) (p : Nat)
    (h0 : counts.sum ≠ 0) (hcard : (nonzeroSymbols counts).length ≤ 2 ^ p) :
    (∀ i, i < counts.length → counts.getD i 0 ≠ 0 →
      (scaledCounts counts p).getD i 0 =
        max 1 (roundDiv (counts.getD i 0 * 2 ^ p) counts.sum)) ∧
    (orderOf counts).Nodup ∧
    (∀ i, i ∈ orderOf counts ↔ i < counts.length ∧ counts.getD i 0 ≠ 0) ∧
    (orderOf counts).Pairwise
      (fun a b => counts.getD b 0 < counts.getD a 0 ∨
        (counts.getD a 0 = counts.getD b 0 ∧ a ≤ b)) ∧
    renormFreqs counts p =
      (if (scaledCounts counts p).sum ≤ 2 ^ p then
        distributeInc (2 ^ p - (scaledCounts counts p).sum) (scaledCounts counts p)
          (orderOf counts) (2 ^ p - (scaledCounts counts p).sum)
      else
        distributeDec ((scaledCounts counts p).sum - 2 ^ p) (scaledCounts counts p)
          (orderOf counts) ((scaledCounts counts p).sum - 2 ^ p)) ∧
    (∀ i, i < counts.length → counts.getD i 0 ≠ 0 → 1 ≤ (renormFreqs counts p).getD i 0) := by
  refine ⟨?_, orderOf_nodup counts, mem_orderOf counts, orderOf_sorted counts, rfl,
    (renormFreqs_spec counts p h0 hcard).2.1⟩
  intro i hil hnz
  rw [scaledCounts_getD counts p i hil, if_neg hnz]

/-- C4 witness: the histogram `[2, 1]` at precision 2. -/
theorem renorm_correction_algorithm_witness :
    ([2, 1] : List Nat).sum ≠ 0 ∧ (nonzeroSymbols [2, 1]).length ≤ 2 ^ 2 ∧
      ((∀ i, i < ([2, 1] : List Nat).length → ([2, 1] : List Nat).getD i 0 ≠ 0 →
        (scaledCounts [2, 1] 2).getD i 0 =
          max 1 (roundDiv (([2, 1] : List Nat).getD i 0 * 2 ^ 2) ([2, 1] : List Nat).sum)) ∧
      (orderOf [2, 1]).Nodup ∧
      (∀ i, i ∈ orderOf [2, 1] ↔ i < ([2, 1] : List Nat).length ∧
        ([2, 1] : List Nat).getD i 0 ≠ 0) ∧
      (orderOf [2, 1]).Pairwise
        (fun a b => ([2, 1] : List Nat).getD b 0 < ([2, 1] : List Nat).getD a 0 ∨
          (([2, 1] : List Nat).getD a 0 = ([2, 1] : List Nat).getD b 0 ∧ a ≤ b)) ∧
      renormFreqs [2, 1] 2 =
        (if (scaledCounts [2, 1] 2).sum ≤ 2 ^ 2 then
          distributeInc (2 ^ 2 - (scaledCounts [2, 1] 2).sum) (scaledCounts [2, 1] 2)
            (orderOf [2, 1]) (2 ^ 2 - (scaledCounts [2, 1] 2).sum)
        else
          distributeDec ((scaledCounts [2, 1] 2).sum - 2 ^ 2) (scaledCounts [2, 1] 2)
            (orderOf [2, 1]) ((scaledCounts [2, 1] 2).sum - 2 ^ 2)) ∧
      (∀ i, i < ([2, 1] : List Nat).length → ([2, 1] : List Nat).getD i 0 ≠ 0 →
        1 ≤ (renormFreqs [2, 1] 2).getD i 0)) :=
  ⟨by decide, by decide, renorm_correction_algorithm [2, 1] 2 (by decide) (by decide)⟩

/-! ### Degenerate single-symbol alphabet -/

/-- Rounding a count against its own total gives exactly the target mass. -/
theorem roundDiv_self_pow (c p : Nat) (hc : c ≠ 0) : roundDiv (c * 2 ^ p) c = 2 ^ p := by
  unfold roundDiv
  have h1 : 2 * (c * 2 ^ p) + c = c * (2 * 2 ^ p + 1) := by ring
  have h2 : 2 * c = c * 2 := by ring
  rw [h1, h2, Nat.mul_div_mul_left _ _ (by omega)]
  rw [Nat.mul_add_div (by omega)]
  omega

/-- A histogram supported on one symbol has that symbol's count as its
total. -/
theorem sum_single_support (counts : List Nat) (s0 : Nat) (hs0 : s0 < counts.length)
    (honly : ∀ i, i ≠ s0 → counts.getD i 0 = 0) : counts.sum = counts.getD s0 0 := by
  have h := sum_eq_sum_order counts [s0] (by simp) (by simpa using hs0)
    (fun i _ hi => honly i (by simpa using hi))
  simpa using h.symm

/-- Proportional scaling of a single-symbol histogram: the whole mass goes
to that symbol. -/
theorem scaledCounts_single (counts : List Nat) (p s0 : Nat) (hs0 : s0 < counts.length)
    (hnz : counts.getD s0 0 ≠ 0) (honly : ∀ i, i ≠ s0 → counts.getD i 0 = 0) :
    ∀ i, (scaledCounts counts p).getD i 0 = if i = s0 then 2 ^ p else 0 := by
  intro i
  by_cases hi : i = s0
  · subst hi
    rw [scaledCounts_getD counts p i hs0, if_neg hnz, if_pos rfl,
      sum_single_support counts i hs0 honly, roundDiv_self_pow _ p hnz]
    exact Nat.max_eq_right Nat.one_le_two_pow
  · rw [if_neg hi]
    by_cases hlen : i < counts.length
    · exact scaledCounts_zero counts p i (Or.inl (honly i hi))
    · exact scaledCounts_zero counts p i (Or.inr (by omega))

/-- Renormalizing a single-symbol histogram assigns the full `2^precision`
to that symbol and zero elsewhere. -/
theorem renormFreqs_single (counts : List Nat) (p s0 : Nat) (hs0 : s0 < counts.length)
    (hnz : counts.getD s0 0 ≠ 0) (honly : ∀ i, i ≠ s0 → counts.getD i 0 = 0) :
    renormFreqs counts p = scaledCounts counts p ∧
    ∀ i, (renormFreqs counts p).getD i 0 = if i = s0 then 2 ^ p else 0 := by
  have hchar := scaledCounts_single counts p s0 hs0 hnz honly
  have hsum : (scaledCounts counts p).sum = 2 ^ p := by
    have h := sum_eq_sum_order (scaledCounts counts p) [s0] (by simp)
      (by rw [scaledCounts_length]; simpa using hs0)
      (fun i hil hi => by rw [hchar i, if_neg (by simpa using hi)])
    have h2 : (scaledCounts counts p).getD s0 0 = 2 ^ p := by
      rw [hchar s0, if_pos rfl]
    simp only [List.map_cons, List.map_nil, List.sum_cons, List.sum_nil] at h
    omega
  have hmain : renormFreqs counts p = scaledCounts counts p := by
    have hdef : renormFreqs counts p =
        if (scaledCounts counts p).sum ≤ 2 ^ p then
          distributeInc (2 ^ p - (scaledCounts counts p).sum) (scaledCounts counts p)
            (orderOf counts) (2 ^ p - (scaledCounts counts p).sum)
        else
          distributeDec ((scaledCounts counts p).sum - 2 ^ p) (scaledCounts counts p)
            (orderOf counts) ((scaledCounts counts p).sum - 2 ^ p) := rfl
    rw [hdef, if_pos (by omega), hsum]
    have hz : 2 ^ p - 2 ^ p = 0 := by omega
    rw [hz]
    rfl
  exact ⟨hmain, fun i => by rw [hmain]; exact hchar i⟩

/-- A table whose entries below `s` all read zero has zero cumulative start
at `s`. -/
theorem cumFreq_zero_of_prefix_zero (l : List Nat) (s : Nat)
    (h : ∀ i, i < s → l.getD i 0 = 0) : cumFreq l s = 0 := by
  induction l generalizing s with
  | nil => simp [cumFreq]
  | cons a t ih =>
    cases s with
    | zero => simp [cumFreq]
    | succ u =>
      rw [cumFreq_cons_succ]
      have ha : a = 0 := by
        have := h 0 (by omega)
        simpa using this
      have ht : cumFreq t u = 0 := by
        apply ih
        intro i hi
        have := h (i + 1) (by omega)
        simpa using this
      omega

/-- The state update of the full-mass symbol is the identity. -/
theorem encUpdate_pow_id (p x : Nat) : encUpdate p (2 ^ p) 0 x = x := by
  unfold encUpdate
  have h := Nat.div_add_mod x (2 ^ p)
  have h2 : 2 ^ p * (x / 2 ^ p) = x / 2 ^ p * 2 ^ p := Nat.mul_comm _ _
  omega

/-- Encoding the full-mass symbol leaves state and output untouched. -/
theorem encStep_degenerate (p L b x s0 : Nat) (freqs : List Nat) (out : List Nat)
    (hf : freqs.getD s0 0 = 2 ^ p) (hc : cumFreq freqs s0 = 0) (hxB : x < L * 2 ^ b) :
    encStep p L b freqs (x, out) s0 = (x, out) := by
  have hgo : encEmitGo p b (L * 2 ^ b) (freqs.getD s0 0) (cumFreq freqs s0) (x + 1) x out =
      (x, out) := by
    rw [hf, hc]
    simp only [encEmitGo]
    rw [encUpdate_pow_id, if_neg (by omega)]
  show (encUpdate p (freqs.getD s0 0) (cumFreq freqs s0)
      (encEmitGo p b (L * 2 ^ b) (freqs.getD s0 0) (cumFreq freqs s0) (x + 1) x out).1,
    (encEmitGo p b (L * 2 ^ b) (freqs.getD s0 0) (cumFreq freqs s0) (x + 1) x out).2) =
      (x, out)
  rw [hgo, hf, hc, encUpdate_pow_id]

/-- Decoding under the full-mass symbol reads nothing and returns the same
state. -/
theorem decStep_degenerate (p m b s0 : Nat) (freqs : List Nat)
    (hf : freqs.getD s0 0 = 2 ^ p) (hc : cumFreq freqs s0 = 0)
    (hs0 : s0 < freqs.length) :
    decStep p (m * 2 ^ p) b freqs (m * 2 ^ p, []) = (some s0, (m * 2 ^ p, [])) := by
  have hp1 : 0 < 2 ^ p := Nat.pos_pow_of_pos p (by omega)
  have hslot : m * 2 ^ p % 2 ^ p = 0 := Nat.mul_mod_left m (2 ^ p)
  have hlook : slotLookup freqs (m * 2 ^ p % 2 ^ p) = some s0 := by
    rw [hslot]
    exact (slotLookup_eq_some_iff freqs 0 s0).mpr ⟨hs0, by omega, by rw [hc, hf]; omega⟩
  unfold decStep
  simp only [hlook]
  rw [hf, hc, hslot]
  have hdivm : m * 2 ^ p / 2 ^ p = m := Nat.mul_div_cancel m hp1
  rw [hdivm]
  have hx2 : 2 ^ p * m + 0 - 0 = m * 2 ^ p := by
    rw [Nat.mul_comm]
    omega
  rw [hx2]
  rfl

/-- C7: a histogram with exactly one distinct symbol renormalizes to the
full `2^precision` on that symbol, and any sequence of that symbol encodes
with zero renormalization words emitted (terminal state equal to the lower
bound) while still round-tripping through decode. -/
theorem degenerate_alphabet (counts : List Nat) (p m b k s0 : Nat)
    (hs0 : s0 < counts.length) (hnz : counts.getD s0 0 ≠ 0)
    (honly : ∀ i, i ≠ s0 → counts.getD i 0 = 0) (hm : 0 < m) (hb : 0 < b) :
    (renormFreqs counts p).getD s0 0 = 2 ^ p ∧
    (∀ i, i ≠ s0 → (renormFreqs counts p).getD i 0 = 0) ∧
    encodeAll p (m * 2 ^ p) b (renormFreqs counts p) (List.replicate k s0) =
      (m * 2 ^ p, []) ∧
    decodeAll p (m * 2 ^ p) b (renormFreqs counts p) k (m * 2 ^ p, []) =
      (List.replicate k s0, (m * 2 ^ p, [])) := by
  have hp1 : 0 < 2 ^ p := Nat.pos_pow_of_pos p (by omega)
  have hb2 : 2 ≤ 2 ^ b := by
    calc 2 = 2 ^ 1 := by norm_num
    _ ≤ 2 ^ b := Nat.pow_le_pow_right (by omega) hb
  obtain ⟨_, hchar⟩ := renormFreqs_single counts p s0 hs0 hnz honly
  have hf : (renormFreqs counts p).getD s0 0 = 2 ^ p := by
    rw [hchar s0, if_pos rfl]
  have hc : cumFreq (renormFreqs counts p) s0 = 0 := by
    apply cumFreq_zero_of_prefix_zero
    intro i hi
    rw [hchar i, if_neg (by omega)]
  have hs0len : s0 < (renormFreqs counts p).length := by
    have h1 := (renormFreqs_single counts p s0 hs0 hnz honly).1
    rw [h1, scaledCounts_length]
    exact hs0
  have hLB : m * 2 ^ p < m * 2 ^ p * 2 ^ b := by
    have hL : 0 < m * 2 ^ p := Nat.mul_pos hm hp1
    calc m * 2 ^ p = m * 2 ^ p * 1 := by omega
    _ < m * 2 ^ p * 2 ^ b := (Nat.mul_lt_mul_left hL).mpr (by omega)
  have hds := decStep_degenerate p m b s0 (renormFreqs counts p) hf hc hs0len
  have hdec : ∀ j, decodeAll p (m * 2 ^ p) b (renormFreqs counts p) j (m * 2 ^ p, []) =
      (List.replicate j s0, (m * 2 ^ p, [])) := by
    intro j
    induction j with
    | zero => rfl
    | succ j ihj =>
      rw [List.replicate_succ]
      simp only [decodeAll, hds, ihj]
  have henc : ∀ j, encodeAll p (m * 2 ^ p) b (renormFreqs counts p) (List.replicate j s0) =
      (m * 2 ^ p, []) := by
    intro j
    induction j with
    | zero => rfl
    | succ j ihj =>
      rw [List.replicate_succ]
      show encStep p (m * 2 ^ p) b (renormFreqs counts p)
        (encodeAll p (m * 2 ^ p) b (renormFreqs counts p) (List.replicate j s0)) s0 = _
      rw [ihj]
      exact encStep_degenerate p (m * 2 ^ p) b (m * 2 ^ p) s0 (renormFreqs counts p) []
        hf hc hLB
  exact ⟨hf, fun i hi => by rw [hchar i, if_neg hi], henc k, hdec k⟩

/-- C7 witness: the histogram `[0, 5]` (single symbol 1) at precision 3,
lower bound `2 * 2^3`, 4-bit words, three symbols. -/
theorem degenerate_alphabet_witness :
    1 < ([0, 5] : List Nat).length ∧ ([0, 5] : List Nat).getD 1 0 ≠ 0 ∧
    (∀ i, i ≠ 1 → ([0, 5] : List Nat).getD i 0 = 0) ∧
    ((renormFreqs [0, 5] 3).getD 1 0 = 2 ^ 3 ∧
      (∀ i, i ≠ 1 → (renormFreqs [0, 5] 3).getD i 0 = 0) ∧
      encodeAll 3 (2 * 2 ^ 3) 4 (renormFreqs [0, 5] 3) (List.replicate 3 1) =
        (2 * 2 ^ 3, []) ∧
      decodeAll 3 (2 * 2 ^ 3) 4 (renormFreqs [0, 5] 3) 3 (2 * 2 ^ 3, []) =
        (List.replicate 3 1, (2 * 2 ^ 3, []))) :=
  ⟨by decide, by decide, fun i hi => by
      match i with
      | 0 => rfl
      | 1 => exact absurd rfl hi
      | n + 2 => rfl,
    degenerate_alphabet [0, 5] 3 2 4 3 1 (by decide) (by decide)
      (fun i hi => by
        match i with
        | 0 => rfl
        | 1 => exact absurd rfl hi
        | n + 2 => rfl)
      (by decide) (by decide)⟩

end O2Rans
